import Mathlib

/-!
Verification development for the nim-sds reliability layer.

The repository ships a single C interface file, `src/bindings/bindings.h`,
declaring the boundary of a causal-dependency reliability manager.  The first
section below embeds the declared callback and function signatures literally.
The second section models the manager core (dependency store, wrap/unwrap,
cascade resolution, mark-met, reset) whose implementation sits behind the
header; every such definition is marked `Modelled from the spec:` and follows
the specification text.
-/

namespace Sds

/-! ## Part 1: the C interface of src/bindings/bindings.h -/

/-- A formal parameter of a C function or callback type in bindings.h,
tagged by its C type and carrying its declared name. -/
inductive CParam where
  | constCharPtr : String → CParam
  | constCharPtrPtr : String → CParam
  | sizeT : String → CParam
  | voidPtr : String → CParam
deriving DecidableEq

/-- The declared name of a C parameter. -/
def CParam.pname : CParam → String
  | .constCharPtr n => n
  | .constCharPtrPtr n => n
  | .sizeT n => n
  | .voidPtr n => n

/-- Embedded from bindings.h line 43:
`typedef void (*MessageReadyCallback)(const char* messageID);` -/
def MessageReadyCallbackParams : List CParam :=
  [CParam.constCharPtr "messageID"]

/-- Embedded from bindings.h line 44:
`typedef void (*MessageSentCallback)(const char* messageID);` -/
def MessageSentCallbackParams : List CParam :=
  [CParam.constCharPtr "messageID"]

/-- Embedded from bindings.h line 45:
`typedef void (*MissingDependenciesCallback)(const char* messageID, const char** missingDeps, size_t missingDepsCount);` -/
def MissingDependenciesCallbackParams : List CParam :=
  [CParam.constCharPtr "messageID",
   CParam.constCharPtrPtr "missingDeps",
   CParam.sizeT "missingDepsCount"]

/-- Embedded from bindings.h line 46:
`typedef void (*PeriodicSyncCallback)(void* user_data);` -/
def PeriodicSyncCallbackParams : List CParam :=
  [CParam.voidPtr "user_data"]

/-- Embedded from bindings.h lines 106-111: the parameters of
`RegisterCallbacks`, which receives the four callbacks and the
`user_data` pointer supplied at registration time. -/
def RegisterCallbacksParams : List CParam :=
  [CParam.voidPtr "handle",
   CParam.voidPtr "messageReady",
   CParam.voidPtr "messageSent",
   CParam.voidPtr "missingDependencies",
   CParam.voidPtr "periodicSync",
   CParam.voidPtr "user_data"]

/-! ## Part 2: the manager core, modelled from the specification

The Nim implementation of the reliability manager (the code behind
`bindings.h`: `NewReliabilityManager`, `WrapOutgoingMessage`,
`UnwrapReceivedMessage`, `MarkDependenciesMet`, `ResetReliabilityManager`)
is not present under src/; only its C declarations are.  The definitions in
this part are therefore modelled from the specification (spec.md sections
3, 4 and 6). -/

/-- Raw bytes travelling across the boundary. -/
abbrev Bytes := List Nat

/-- Modelled from the spec: CausalMetadata plus payload (spec section 3) as
carried by one wrapped message.  The Nim type behind `CWrapResult.message`
is absent from src/. -/
structure WrappedMessage where
  messageId : String
  deps : List String
  payload : Bytes
deriving DecidableEq

/-- Modelled from the spec: a self-describing serialization of a string as
a length-prefixed run of character codes (spec section 4.1 leaves the wire
format to the implementer but requires lossless round-tripping). -/
def encodeStr (s : String) : Bytes :=
  s.length :: (s.data.map Char.toNat)

/-- Modelled from the spec: parse one length-prefixed string, returning the
string and the remaining bytes, or `none` on malformed input. -/
def readStr : Bytes → Option (String × Bytes)
  | [] => none
  | n :: rest =>
    if n ≤ rest.length then
      some (String.mk ((rest.take n).map Char.ofNat), rest.drop n)
    else none

/-- Modelled from the spec: parse a counted sequence of length-prefixed
strings. -/
def readStrs : Nat → Bytes → Option (List String × Bytes)
  | 0, b => some ([], b)
  | n + 1, b =>
    match readStr b with
    | none => none
    | some (s, rest) =>
      match readStrs n rest with
      | none => none
      | some (ss, rest2) => some (s :: ss, rest2)

/-- Modelled from the spec: serialize metadata plus payload into one byte
blob (spec section 4.1): the message id, the dependency count followed by
the dependency ids, then the length-prefixed payload. -/
def encode (w : WrappedMessage) : Bytes :=
  encodeStr w.messageId ++
    (w.deps.length :: ((w.deps.map encodeStr).flatten ++
      (w.payload.length :: w.payload)))

/-- Modelled from the spec: parse a wrapped message back out of a byte
blob; `none` models the `MalformedMessage` outcome (spec section 4.2). -/
def decode (b : Bytes) : Option WrappedMessage :=
  match readStr b with
  | none => none
  | some (mid, r1) =>
    match r1 with
    | [] => none
    | dn :: r2 =>
      match readStrs dn r2 with
      | none => none
      | some (deps, r3) =>
        match r3 with
        | [] => none
        | pn :: r4 =>
          if pn = r4.length then some ⟨mid, deps, r4⟩ else none

/-- Modelled from the spec: the lifecycle events the dispatcher delivers to
the caller (spec section 6). -/
inductive Event where
  | messageReady : String → Bytes → Event
  | messageSent : String → Event
  | missingDeps : String → List String → Event
  | periodicSync : List String → Event
deriving DecidableEq

/-- Modelled from the spec: one `pending` entry — the raw payload, the full
dependency set from the metadata, and the cached outstanding (still unmet)
dependency set (spec section 3). -/
structure PendingEntry where
  payload : Bytes
  deps : List String
  outstanding : List String
deriving DecidableEq

/-- Modelled from the spec: the per-channel state of the dependency store
(spec section 3): `met`, `pending`, the reverse `waitIndex` (kept as the
list of edges dependency-id to blocked pending-id), and the bounded causal
history used by the outgoing wrapper. -/
structure ChannelState where
  met : List String
  pending : List (String × PendingEntry)
  waitIndex : List (String × String)
  history : List String
deriving DecidableEq

/-- The channel state a manager starts from (and returns to on reset). -/
def emptyChannelState : ChannelState := ⟨[], [], [], []⟩

/-- Modelled from the spec: `outstanding = deps \ met` (spec section 4.2). -/
def outstandingOf (met deps : List String) : List String :=
  deps.filter (fun d => decide (d ∉ met))

/-- The message ids currently buffered in `pending`. -/
def pendingKeys (s : ChannelState) : List String :=
  s.pending.map Prod.fst

/-- Remove a newly met dependency id from the outstanding set of a pending entry. -/
def removeDep (id : String) (e : PendingEntry) : PendingEntry :=
  { e with outstanding := e.outstanding.filter (fun d => decide (d ≠ id)) }

/-- Modelled from the spec: the effect of one dependency id becoming met on
the dependency store (spec section 4.2): drop the id from every blocked
outstanding set of every blocked entry (the entries indexed by `waitIndex`), clear its
`waitIndex` bucket, and split off the entries whose outstanding set became
empty (returned as the newly deliverable entries). -/
def metOne (s : ChannelState) (id : String) : ChannelState × List (String × PendingEntry) :=
  let pending2 := s.pending.map (fun pe => (pe.1, removeDep id pe.2))
  let ready := pending2.filter (fun pe => decide (pe.2.outstanding = []))
  let rest := pending2.filter (fun pe => decide (pe.2.outstanding ≠ []))
  ({ s with pending := rest,
            waitIndex := s.waitIndex.filter (fun ed => decide (ed.1 ≠ id)) },
   ready)

/-- Size of the bounded causal-history recency window (spec section 4.1:
"a bounded recency window of the most recently wrapped/delivered message
ids"; the bound itself is implementation-defined). -/
def historyWindow : Nat := 10

/-- Modelled from the spec: register an id into the bounded causal history
(spec sections 4.1 and 3). -/
def pushHistory (h : List String) (id : String) : List String :=
  let h2 := (h.filter (fun x => decide (x ≠ id))) ++ [id]
  h2.drop (h2.length - historyWindow)

/-- The state after one cascade round for a newly met id: the depleted
pending map and cleared `waitIndex` bucket from `metOne`, with the newly
deliverable ids appended to `met` and registered into the history. -/
def cascadeStep (s : ChannelState) (id : String) : ChannelState :=
  { (metOne s id).1 with
      met := (metOne s id).1.met ++ (metOne s id).2.map Prod.fst,
      history := ((metOne s id).2.map Prod.fst).foldl pushHistory (metOne s id).1.history }

/-- Modelled from the spec: breadth-first cascade over `waitIndex` (spec
section 4.2).  The queue holds ids newly added to `met` whose blocked
entries are still to be resolved; every delivery appends the delivered id
to `met`, emits `MESSAGE_READY`, and enqueues the id.  The fuel argument
bounds the loop; the callers pass `queue.length + pending.length`, which
the termination theorem shows is always enough, cyclic dependency graphs
included. -/
def runCascade : Nat → ChannelState → List String → ChannelState × List Event
  | 0, s, _ => (s, [])
  | _ + 1, s, [] => (s, [])
  | fuel + 1, s, id :: queue =>
    let r := runCascade fuel (cascadeStep s id) (queue ++ (metOne s id).2.map Prod.fst)
    (r.1, ((metOne s id).2.map fun pe => Event.messageReady pe.1 pe.2.payload) ++ r.2)

/-- Mark a newly arrived, immediately deliverable id as met and push it
into the causal history (the start state of its cascade). -/
def deliverNew (s : ChannelState) (id : String) : ChannelState :=
  { s with met := s.met ++ [id], history := pushHistory s.history id }

/-- Buffer a message whose outstanding dependency set is non-empty: store
it in `pending` and add one `waitIndex` edge per outstanding dependency. -/
def bufferMsg (s : ChannelState) (w : WrappedMessage) (outst : List String) : ChannelState :=
  { s with pending := s.pending ++ [(w.messageId, ⟨w.payload, w.deps, outst⟩)],
           waitIndex := s.waitIndex ++ outst.map (fun d => (d, w.messageId)) }

/-- Modelled from the spec: `UnwrapReceivedMessage` (spec section 4.2).
`none` models the `MalformedMessage` error.  A message whose id is already
met, or already buffered, is a duplicate: success, no events, no state
change.  Otherwise, if every dependency is met the message is delivered
and the cascade runs; else it is buffered, `waitIndex` gains one edge per
outstanding dependency, and `MISSING_DEPENDENCIES` is emitted with exactly
the outstanding ids. -/
def unwrapReceived (s : ChannelState) (data : Bytes) : Option (ChannelState × List Event) :=
  match decode data with
  | none => none
  | some w =>
    if w.messageId ∈ s.met then some (s, [])
    else if w.messageId ∈ pendingKeys s then some (s, [])
    else
      if outstandingOf s.met w.deps = [] then
        some ((runCascade (1 + (deliverNew s w.messageId).pending.length)
                 (deliverNew s w.messageId) [w.messageId]).1,
              Event.messageReady w.messageId w.payload ::
                (runCascade (1 + (deliverNew s w.messageId).pending.length)
                   (deliverNew s w.messageId) [w.messageId]).2)
      else
        some (bufferMsg s w (outstandingOf s.met w.deps),
              [Event.missingDeps w.messageId (outstandingOf s.met w.deps)])

/-- Modelled from the spec: the error taxonomy crossing the boundary
(spec section 7), as far as the modelled operations need it. -/
inductive SdsError where
  | invalidInput
  | notInitialized
  | malformedMessage
deriving DecidableEq

/-- Modelled from the spec: `WrapOutgoingMessage` (spec section 4.1): fail
with `InvalidInput` on an empty payload or empty id; otherwise stamp the
message with the current causal history (excluding itself), register the
id into `met` and into the history, and return the serialized bytes
without sending anything.  The global-uniqueness assumption of the spec on
message ids is a hypothesis of the invariant theorem, not enforced here. -/
def wrapOutgoing (s : ChannelState) (payload : Bytes) (mid : String) :
    Except SdsError (ChannelState × Bytes × List Event) :=
  if payload = [] ∨ mid = "" then Except.error SdsError.invalidInput
  else
    let deps := s.history.filter (fun d => decide (d ≠ mid))
    Except.ok
      ({ s with met := s.met ++ [mid], history := pushHistory s.history mid },
       encode ⟨mid, deps, payload⟩,
       [Event.messageSent mid])

/-- Drop any pending entry buffered under the given id (and the
`waitIndex` edges pointing at it). -/
def dropPending (s : ChannelState) (id : String) : ChannelState :=
  { s with pending := s.pending.filter (fun pe => decide (pe.1 ≠ id)),
           waitIndex := s.waitIndex.filter (fun ed => decide (ed.2 ≠ id)) }

/-- Add one id to `met`. -/
def addMet (s : ChannelState) (id : String) : ChannelState :=
  { s with met := s.met ++ [id] }

/-- Mark one not-yet-met id as met and cascade: drop any pending entry
buffered under it, add it to `met`, and resolve its `waitIndex` bucket. -/
def markMetOne (s : ChannelState) (id : String) : ChannelState × List Event :=
  runCascade (1 + (addMet (dropPending s id) id).pending.length)
    (addMet (dropPending s id) id) [id]

/-- Modelled from the spec: `MarkDependenciesMet` (spec section 4.3): for
each id not already in `met`, add it to `met` and run the same cascade as
unwrap against its `waitIndex` bucket; a no-op for ids already met.  An id
that is itself a buffered pending message is dropped from `pending` (and
from the `waitIndex` edges pointing at it) when marked met, preserving the
spec invariant that `met` and the pending keys stay disjoint. -/
def markDependenciesMet : ChannelState → List String → ChannelState × List Event
  | s, [] => (s, [])
  | s, id :: ids =>
    if id ∈ s.met then markDependenciesMet s ids
    else
      ((markDependenciesMet (markMetOne s id).1 ids).1,
       (markMetOne s id).2 ++ (markDependenciesMet (markMetOne s id).1 ids).2)

/-- Modelled from the spec: the manager lifecycle states (spec section 4.6). -/
inductive Phase where
  | created
  | active
deriving DecidableEq

/-- Modelled from the spec: a reliability manager instance — one isolated
channel state plus its lifecycle phase (spec sections 3 and 4.6). -/
structure Manager where
  channelId : String
  phase : Phase
  state : ChannelState
deriving DecidableEq

/-- Modelled from the spec: `NewReliabilityManager` allocates fresh channel
state (spec section 4.6, state `Created`). -/
def newReliabilityManager (cid : String) : Manager :=
  ⟨cid, Phase.created, emptyChannelState⟩

/-- Modelled from the spec: `ResetReliabilityManager` (spec section 4.6):
an invalid handle (`none`, used before creation) fails with
`NotInitialized`; a valid handle has its `met`, `pending` and `waitIndex`
cleared back to empty and the manager returns to `Active`. -/
def resetReliabilityManager : Option Manager → Except SdsError Manager
  | none => Except.error SdsError.notInitialized
  | some m => Except.ok { m with state := emptyChannelState, phase := Phase.active }

/-- Does this event report `MESSAGE_READY` for the given id? -/
def isReadyFor (mid : String) : Event → Bool
  | Event.messageReady m _ => decide (m = mid)
  | _ => false

/-- How many `MESSAGE_READY` events for the given id a trace contains. -/
def countReady (mid : String) (evs : List Event) : Nat :=
  (evs.filter (isReadyFor mid)).length

/-- Modelled from the spec: the channel-state invariant (spec section 3):
the outstanding set of every pending entry is exactly the unmet part of its
dependency set, `waitIndex` is the exact inverse of the outstanding sets,
and `met` is disjoint from the pending keys.  The last two fields are
auxiliary strengthenings the induction needs: a buffered entry always has
at least one outstanding dependency, and pending keys are duplicate-free. -/
structure Inv (s : ChannelState) : Prop where
  outEq : ∀ mid e, (mid, e) ∈ s.pending → e.outstanding = outstandingOf s.met e.deps
  wiIff : ∀ d mid, (d, mid) ∈ s.waitIndex ↔ ∃ e, (mid, e) ∈ s.pending ∧ d ∈ e.outstanding
  metDisj : ∀ mid e, (mid, e) ∈ s.pending → mid ∉ s.met
  outNe : ∀ mid e, (mid, e) ∈ s.pending → e.outstanding ≠ []
  keysNodup : (s.pending.map Prod.fst).Nodup

/-- The generalized invariant that holds at every intermediate point of a
cascade: ids already in `met` but still in the queue have not yet been
purged from the outstanding sets, so the outstanding sets equal the
dependencies that are unmet-or-queued. -/
structure CInv (s : ChannelState) (queue : List String) : Prop where
  outEq : ∀ mid e, (mid, e) ∈ s.pending →
    e.outstanding = e.deps.filter (fun d => decide (d ∉ s.met ∨ d ∈ queue))
  wiIff : ∀ d mid, (d, mid) ∈ s.waitIndex ↔ ∃ e, (mid, e) ∈ s.pending ∧ d ∈ e.outstanding
  metDisj : ∀ mid e, (mid, e) ∈ s.pending → mid ∉ s.met
  outNe : ∀ mid e, (mid, e) ∈ s.pending → e.outstanding ≠ []
  keysNodup : (s.pending.map Prod.fst).Nodup
  qSub : ∀ id, id ∈ queue → id ∈ s.met
  qNodup : queue.Nodup

/-! ## Helper lemmas: the wire codec round-trips losslessly -/

theorem readStr_encodeStr (s : String) (t : Bytes) :
    readStr (encodeStr s ++ t) = some (s, t) := by
  have hlen : s.length = (s.data.map Char.toNat).length := by
    rw [List.length_map]
    rfl
  simp only [encodeStr, List.cons_append, readStr]
  rw [if_pos]
  · rw [hlen, List.take_left, List.drop_left, List.map_map]
    have hmap : s.data.map (Char.ofNat ∘ Char.toNat) = s.data.map id := by
      apply List.map_congr_left
      intro c _
      exact Char.ofNat_toNat c
    rw [hmap, List.map_id]
  · rw [hlen, List.length_append]
    omega

theorem readStrs_encode (ds : List String) (t : Bytes) :
    readStrs ds.length ((ds.map encodeStr).flatten ++ t) = some (ds, t) := by
  induction ds generalizing t with
  | nil => rfl
  | cons d ds ih =>
    simp only [List.map_cons, List.flatten_cons, List.length_cons, readStrs,
      List.append_assoc, readStr_encodeStr, ih]

theorem decode_encode (w : WrappedMessage) : decode (encode w) = some w := by
  simp only [encode, decode, readStr_encodeStr, readStrs_encode, if_pos]

/-! ## Helper lemmas: basic facts about the cascade -/

theorem runCascade_nil (fuel : Nat) (s : ChannelState) :
    runCascade fuel s [] = (s, []) := by
  cases fuel <;> rfl

theorem runCascade_cons (fuel : Nat) (s : ChannelState) (id : String) (queue : List String) :
    runCascade (fuel + 1) s (id :: queue) =
      ((runCascade fuel (cascadeStep s id) (queue ++ (metOne s id).2.map Prod.fst)).1,
       ((metOne s id).2.map fun pe => Event.messageReady pe.1 pe.2.payload) ++
         (runCascade fuel (cascadeStep s id) (queue ++ (metOne s id).2.map Prod.fst)).2) := rfl

theorem metOne_met (s : ChannelState) (id : String) : (metOne s id).1.met = s.met := rfl

theorem mem_metOne_pending {s : ChannelState} {id mid : String} {e2 : PendingEntry} :
    (mid, e2) ∈ (metOne s id).1.pending ↔
      ∃ e, (mid, e) ∈ s.pending ∧ e2 = removeDep id e ∧ (removeDep id e).outstanding ≠ [] := by
  simp only [metOne, List.mem_filter, List.mem_map, decide_eq_true_eq, Prod.mk.injEq]
  constructor
  · rintro ⟨⟨⟨a, b⟩, hab, rfl, rfl⟩, hne⟩
    exact ⟨b, hab, rfl, hne⟩
  · rintro ⟨e, he, rfl, hne⟩
    exact ⟨⟨(mid, e), he, rfl, rfl⟩, hne⟩

theorem mem_metOne_ready {s : ChannelState} {id mid : String} {e2 : PendingEntry} :
    (mid, e2) ∈ (metOne s id).2 ↔
      ∃ e, (mid, e) ∈ s.pending ∧ e2 = removeDep id e ∧ (removeDep id e).outstanding = [] := by
  simp only [metOne, List.mem_filter, List.mem_map, decide_eq_true_eq, Prod.mk.injEq]
  constructor
  · rintro ⟨⟨⟨a, b⟩, hab, rfl, rfl⟩, hne⟩
    exact ⟨b, hab, rfl, hne⟩
  · rintro ⟨e, he, rfl, hne⟩
    exact ⟨⟨(mid, e), he, rfl, rfl⟩, hne⟩

theorem mem_metOne_wi {s : ChannelState} {id d mid : String} :
    (d, mid) ∈ (metOne s id).1.waitIndex ↔ (d, mid) ∈ s.waitIndex ∧ d ≠ id := by
  simp only [metOne, List.mem_filter, decide_eq_true_eq]

theorem length_filter_partition {α : Type} (l : List α) (p : α → Bool) :
    (l.filter p).length + (l.filter (fun a => !(p a))).length = l.length := by
  induction l with
  | nil => rfl
  | cons a t ih =>
    rcases Bool.eq_false_or_eq_true (p a) with h | h
    · simp [List.filter_cons, h]
      omega
    · simp [List.filter_cons, h]
      omega

theorem metOne_length (s : ChannelState) (id : String) :
    (metOne s id).2.length + (metOne s id).1.pending.length = s.pending.length := by
  simp only [metOne]
  have hcongr :
      (s.pending.map (fun pe => (pe.1, removeDep id pe.2))).filter
          (fun pe => decide (pe.2.outstanding ≠ [])) =
        (s.pending.map (fun pe => (pe.1, removeDep id pe.2))).filter
          (fun pe => !(decide (pe.2.outstanding = []))) := by
    apply List.filter_congr
    intro a _
    simp [decide_not]
  rw [hcongr, length_filter_partition, List.length_map]

theorem metOne_keys_sub {s : ChannelState} {id mid : String} {e2 : PendingEntry}
    (h : (mid, e2) ∈ (metOne s id).1.pending) : ∃ e, (mid, e) ∈ s.pending := by
  rcases mem_metOne_pending.mp h with ⟨e, he, -, -⟩
  exact ⟨e, he⟩

theorem removeDep_payload (id : String) (e : PendingEntry) :
    (removeDep id e).payload = e.payload := rfl

theorem removeDep_deps (id : String) (e : PendingEntry) :
    (removeDep id e).deps = e.deps := rfl

theorem mem_removeDep {id d : String} {e : PendingEntry} :
    d ∈ (removeDep id e).outstanding ↔ d ∈ e.outstanding ∧ d ≠ id := by
  simp [removeDep, List.mem_filter]

theorem runCascade_cons_fst (fuel : Nat) (s : ChannelState) (id : String) (queue : List String) :
    (runCascade (fuel + 1) s (id :: queue)).1 =
      (runCascade fuel (cascadeStep s id) (queue ++ (metOne s id).2.map Prod.fst)).1 := rfl

theorem runCascade_cons_snd (fuel : Nat) (s : ChannelState) (id : String) (queue : List String) :
    (runCascade (fuel + 1) s (id :: queue)).2 =
      ((metOne s id).2.map fun pe => Event.messageReady pe.1 pe.2.payload) ++
        (runCascade fuel (cascadeStep s id) (queue ++ (metOne s id).2.map Prod.fst)).2 := rfl

theorem runCascade_fuel (fuel : Nat) :
    ∀ (n : Nat) (s : ChannelState) (queue : List String),
      queue.length + s.pending.length ≤ fuel →
      runCascade (fuel + n) s queue = runCascade fuel s queue := by
  induction fuel with
  | zero =>
    intro n s queue h
    cases queue with
    | nil => rw [runCascade_nil, runCascade_nil]
    | cons a t => simp [List.length_cons] at h
  | succ fuel ih =>
    intro n s queue h
    cases queue with
    | nil => rw [runCascade_nil, runCascade_nil]
    | cons id q =>
      have hstep : fuel + 1 + n = (fuel + n) + 1 := by omega
      rw [hstep, runCascade_cons, runCascade_cons]
      have hb : (q ++ (metOne s id).2.map Prod.fst).length +
          (metOne s id).1.pending.length ≤ fuel := by
        have hlen := metOne_length s id
        simp only [List.length_append, List.length_map]
        simp only [List.length_cons] at h
        omega
      rw [ih n (cascadeStep s id) (q ++ (metOne s id).2.map Prod.fst) hb]

theorem runCascade_met_append (fuel : Nat) :
    ∀ (s : ChannelState) (queue : List String),
      ∃ t, (runCascade fuel s queue).1.met = s.met ++ t := by
  induction fuel with
  | zero =>
    intro s queue
    exact ⟨[], (List.append_nil _).symm⟩
  | succ fuel ih =>
    intro s queue
    cases queue with
    | nil =>
      rw [runCascade_nil]
      exact ⟨[], (List.append_nil _).symm⟩
    | cons id q =>
      obtain ⟨t, ht⟩ := ih (cascadeStep s id) (q ++ (metOne s id).2.map Prod.fst)
      refine ⟨(metOne s id).2.map Prod.fst ++ t, ?_⟩
      rw [runCascade_cons_fst, ht]
      show (s.met ++ (metOne s id).2.map Prod.fst) ++ t = s.met ++ ((metOne s id).2.map Prod.fst ++ t)
      rw [List.append_assoc]

theorem runCascade_met_mono {fuel : Nat} {s : ChannelState} {queue : List String} {x : String}
    (h : x ∈ s.met) : x ∈ (runCascade fuel s queue).1.met := by
  obtain ⟨t, ht⟩ := runCascade_met_append fuel s queue
  rw [ht]
  exact List.mem_append_left t h

theorem runCascade_persist (fuel : Nat) :
    ∀ (s : ChannelState) (queue : List String) (mid : String) (e : PendingEntry),
      (mid, e) ∈ s.pending →
      (∃ out2, (mid, ⟨e.payload, e.deps, out2⟩) ∈ (runCascade fuel s queue).1.pending) ∨
        Event.messageReady mid e.payload ∈ (runCascade fuel s queue).2 := by
  induction fuel with
  | zero =>
    intro s queue mid e he
    exact Or.inl ⟨e.outstanding, he⟩
  | succ fuel ih =>
    intro s queue mid e he
    cases queue with
    | nil =>
      rw [runCascade_nil]
      exact Or.inl ⟨e.outstanding, he⟩
    | cons id q =>
      by_cases hout : (removeDep id e).outstanding = []
      · right
        rw [runCascade_cons_snd]
        apply List.mem_append_left
        exact List.mem_map.mpr ⟨(mid, removeDep id e), mem_metOne_ready.mpr ⟨e, he, rfl, hout⟩, rfl⟩
      · have h2 : (mid, removeDep id e) ∈ (metOne s id).1.pending :=
          mem_metOne_pending.mpr ⟨e, he, rfl, hout⟩
        rcases ih (cascadeStep s id) (q ++ (metOne s id).2.map Prod.fst)
            mid (removeDep id e) h2 with hpend | hev
        · left
          rw [runCascade_cons_fst]
          exact hpend
        · right
          rw [runCascade_cons_snd]
          exact List.mem_append_right _ hev

theorem runCascade_ready_pending (fuel : Nat) :
    ∀ (s : ChannelState) (queue : List String) (mid : String) (p : Bytes),
      Event.messageReady mid p ∈ (runCascade fuel s queue).2 →
      ∃ e, (mid, e) ∈ s.pending := by
  induction fuel with
  | zero =>
    intro s queue mid p h
    cases h
  | succ fuel ih =>
    intro s queue mid p h
    cases queue with
    | nil =>
      rw [runCascade_nil] at h
      cases h
    | cons id q =>
      rw [runCascade_cons_snd] at h
      rcases List.mem_append.mp h with hl | hr
      · obtain ⟨⟨a, b⟩, hab, heq⟩ := List.mem_map.mp hl
        obtain ⟨rfl, -⟩ : a = mid ∧ b.payload = p := by
          injection heq with h1 h2
          exact ⟨h1, h2⟩
        obtain ⟨e, he, -, -⟩ := mem_metOne_ready.mp hab
        exact ⟨e, he⟩
      · obtain ⟨e2, he2⟩ := ih _ _ _ _ hr
        exact metOne_keys_sub he2

theorem runCascade_pending_sub (fuel : Nat) :
    ∀ (s : ChannelState) (queue : List String) (mid : String) (e2 : PendingEntry),
      (mid, e2) ∈ (runCascade fuel s queue).1.pending →
      ∃ e, (mid, e) ∈ s.pending := by
  induction fuel with
  | zero =>
    intro s queue mid e2 h
    exact ⟨e2, h⟩
  | succ fuel ih =>
    intro s queue mid e2 h
    cases queue with
    | nil =>
      rw [runCascade_nil] at h
      exact ⟨e2, h⟩
    | cons id q =>
      rw [runCascade_cons_fst] at h
      obtain ⟨e3, he3⟩ := ih _ _ _ _ h
      exact metOne_keys_sub he3

/-! ## Helper lemmas: the cascade preserves the channel-state invariant -/

theorem removeDep_outstanding (id : String) (e : PendingEntry) :
    (removeDep id e).outstanding = e.outstanding.filter (fun d => decide (d ≠ id)) := rfl

theorem keys_nodup_val {l : List (String × PendingEntry)} {k : String} {a b : PendingEntry}
    (h : (l.map Prod.fst).Nodup) (h1 : (k, a) ∈ l) (h2 : (k, b) ∈ l) : a = b := by
  induction l with
  | nil => cases h1
  | cons x t ih =>
    simp only [List.map_cons, List.nodup_cons] at h
    rcases List.mem_cons.mp h1 with rfl | h1t
    · rcases List.mem_cons.mp h2 with h2h | h2t
      · cases h2h
        rfl
      · exact absurd (List.mem_map_of_mem Prod.fst h2t) h.1
    · rcases List.mem_cons.mp h2 with rfl | h2t
      · exact absurd (List.mem_map_of_mem Prod.fst h1t) h.1
      · exact ih h.2 h1t h2t

theorem metOne_keys_sublist (s : ChannelState) (id : String) :
    ((metOne s id).1.pending.map Prod.fst).Sublist (s.pending.map Prod.fst) := by
  simp only [metOne]
  have h1 := (List.filter_sublist
    (l := s.pending.map (fun pe => (pe.1, removeDep id pe.2)))
    (p := fun pe => decide (pe.2.outstanding ≠ []))).map Prod.fst
  rw [List.map_map] at h1
  exact h1

theorem metOne_ready_keys_sublist (s : ChannelState) (id : String) :
    (((metOne s id).2).map Prod.fst).Sublist (s.pending.map Prod.fst) := by
  simp only [metOne]
  have h1 := (List.filter_sublist
    (l := s.pending.map (fun pe => (pe.1, removeDep id pe.2)))
    (p := fun pe => decide (pe.2.outstanding = []))).map Prod.fst
  rw [List.map_map] at h1
  exact h1

theorem cinv_step {s : ChannelState} {id : String} {queue : List String}
    (h : CInv s (id :: queue)) (s2 : ChannelState)
    (hmet : s2.met = s.met ++ (metOne s id).2.map Prod.fst)
    (hp : s2.pending = (metOne s id).1.pending)
    (hw : s2.waitIndex = (metOne s id).1.waitIndex) :
    CInv s2 (queue ++ (metOne s id).2.map Prod.fst) := by
  have hidmet : id ∈ s.met := h.qSub id (List.mem_cons_self id queue)
  have hidq : id ∉ queue := (List.nodup_cons.mp h.qNodup).1
  have hqnd : queue.Nodup := (List.nodup_cons.mp h.qNodup).2
  have hnewMet : ∀ x, x ∈ (metOne s id).2.map Prod.fst →
      ∃ e, (x, e) ∈ s.pending ∧ (removeDep id e).outstanding = [] := by
    intro x hx
    obtain ⟨⟨a, b⟩, hab, rfl⟩ := List.mem_map.mp hx
    obtain ⟨e, he, -, hout⟩ := mem_metOne_ready.mp hab
    exact ⟨e, he, hout⟩
  have hnewNotMet : ∀ x, x ∈ (metOne s id).2.map Prod.fst → x ∉ s.met := by
    intro x hx
    obtain ⟨e, he, -⟩ := hnewMet x hx
    exact h.metDisj x e he
  have hidNotNew : id ∉ (metOne s id).2.map Prod.fst := fun hc => hnewNotMet id hc hidmet
  constructor
  · -- outEq
    intro mid e2 hmem
    rw [hp] at hmem
    obtain ⟨e, he, rfl, -⟩ := mem_metOne_pending.mp hmem
    have h0 := h.outEq mid e he
    show (removeDep id e).outstanding = (removeDep id e).deps.filter _
    rw [removeDep_outstanding, removeDep_deps, h0, List.filter_filter]
    apply List.filter_congr
    intro d hd
    rw [← Bool.decide_and]
    apply decide_eq_decide.mpr
    rw [hmet]
    simp only [List.mem_append, List.mem_cons]
    by_cases hdi : d = id
    · subst hdi
      constructor
      · rintro ⟨hne, -⟩
        exact absurd rfl hne
      · rintro (hc | hc | hc)
        · exact absurd (Or.inl hidmet) hc
        · exact absurd hc hidq
        · exact absurd hc hidNotNew
    · by_cases hdn : d ∈ (metOne s id).2.map Prod.fst
      · constructor
        · rintro -
          exact Or.inr (Or.inr hdn)
        · rintro -
          exact ⟨hdi, Or.inl fun hc => hnewNotMet d hdn hc⟩
      · constructor
        · rintro ⟨-, hdm | hdq | hdq⟩
          · exact Or.inl fun hc => (hc.elim hdm hdn)
          · exact absurd hdq hdi
          · exact Or.inr (Or.inl hdq)
        · rintro (hc | hc | hc)
          · exact ⟨hdi, Or.inl fun hm => hc (Or.inl hm)⟩
          · exact ⟨hdi, Or.inr (Or.inr hc)⟩
          · exact absurd hc hdn
  · -- wiIff
    intro d mid
    rw [hw, hp, mem_metOne_wi]
    constructor
    · rintro ⟨hdm, hdi⟩
      obtain ⟨e, he, hdo⟩ := (h.wiIff d mid).mp hdm
      have hmem : d ∈ (removeDep id e).outstanding := mem_removeDep.mpr ⟨hdo, hdi⟩
      exact ⟨removeDep id e,
        mem_metOne_pending.mpr ⟨e, he, rfl, List.ne_nil_of_mem hmem⟩, hmem⟩
    · rintro ⟨e2, he2, hdo⟩
      obtain ⟨e, he, rfl, -⟩ := mem_metOne_pending.mp he2
      obtain ⟨hdo2, hdi⟩ := mem_removeDep.mp hdo
      exact ⟨(h.wiIff d mid).mpr ⟨e, he, hdo2⟩, hdi⟩
  · -- metDisj
    intro mid e2 hmem
    rw [hp] at hmem
    rw [hmet]
    obtain ⟨e, he, rfl, hne⟩ := mem_metOne_pending.mp hmem
    intro hc
    rcases List.mem_append.mp hc with hl | hr
    · exact h.metDisj mid e he hl
    · obtain ⟨e3, he3, hout3⟩ := hnewMet mid hr
      rw [keys_nodup_val h.keysNodup he3 he] at hout3
      exact hne hout3
  · -- outNe
    intro mid e2 hmem
    rw [hp] at hmem
    obtain ⟨e, he, rfl, hne⟩ := mem_metOne_pending.mp hmem
    exact hne
  · -- keysNodup
    rw [hp]
    exact h.keysNodup.sublist (metOne_keys_sublist s id)
  · -- qSub
    intro x hx
    rw [hmet]
    rcases List.mem_append.mp hx with hl | hr
    · exact List.mem_append_left _ (h.qSub x (List.mem_cons_of_mem id hl))
    · exact List.mem_append_right _ hr
  · -- qNodup
    refine List.Nodup.append hqnd (h.keysNodup.sublist (metOne_ready_keys_sublist s id)) ?_
    intro x hxq hxn
    exact hnewNotMet x hxn (h.qSub x (List.mem_cons_of_mem id hxq))

theorem cinv_nil {s : ChannelState} (h : CInv s []) : Inv s := by
  constructor
  · intro mid e hmem
    rw [h.outEq mid e hmem, outstandingOf]
    apply List.filter_congr
    intro d _
    apply decide_eq_decide.mpr
    simp
  · exact h.wiIff
  · exact h.metDisj
  · exact h.outNe
  · exact h.keysNodup

theorem inv_start {s : ChannelState} {id : String} (h : Inv s)
    (hm : id ∉ s.met) (hpk : id ∉ pendingKeys s) (s1 : ChannelState)
    (hmet : s1.met = s.met ++ [id]) (hpend : s1.pending = s.pending)
    (hwi : s1.waitIndex = s.waitIndex) : CInv s1 [id] := by
  constructor
  · intro mid e hmem
    rw [hpend] at hmem
    rw [h.outEq mid e hmem, outstandingOf]
    apply List.filter_congr
    intro d _
    apply decide_eq_decide.mpr
    rw [hmet]
    simp only [List.mem_append, List.mem_cons, List.not_mem_nil, or_false]
    by_cases hdi : d = id
    · subst hdi
      constructor
      · intro _
        exact Or.inr rfl
      · intro _
        exact hm
    · constructor
      · intro hd
        exact Or.inl fun hc => hc.elim hd hdi
      · rintro (hc | hc)
        · exact fun hdm => hc (Or.inl hdm)
        · exact absurd hc hdi
  · intro d mid
    rw [hwi, hpend]
    exact h.wiIff d mid
  · intro mid e hmem
    rw [hpend] at hmem
    rw [hmet]
    intro hc
    rcases List.mem_append.mp hc with hl | hr
    · exact h.metDisj mid e hmem hl
    · rw [List.mem_singleton.mp hr] at hmem
      exact hpk (List.mem_map_of_mem Prod.fst hmem)
  · intro mid e hmem
    rw [hpend] at hmem
    exact h.outNe mid e hmem
  · rw [hpend]
    exact h.keysNodup
  · intro x hx
    rw [hmet]
    exact List.mem_append_right _ hx
  · exact List.nodup_singleton id

theorem inv_dropPending {s : ChannelState} (h : Inv s) (id : String) :
    Inv (dropPending s id) := by
  constructor
  · intro mid e hmem
    simp only [dropPending, List.mem_filter, decide_eq_true_eq] at hmem
    exact h.outEq mid e hmem.1
  · intro d mid
    simp only [dropPending, List.mem_filter, decide_eq_true_eq]
    constructor
    · rintro ⟨hdm, hne⟩
      obtain ⟨e, he, hdo⟩ := (h.wiIff d mid).mp hdm
      exact ⟨e, ⟨he, hne⟩, hdo⟩
    · rintro ⟨e, ⟨he, hne⟩, hdo⟩
      exact ⟨(h.wiIff d mid).mpr ⟨e, he, hdo⟩, hne⟩
  · intro mid e hmem
    simp only [dropPending, List.mem_filter, decide_eq_true_eq] at hmem
    exact h.metDisj mid e hmem.1
  · intro mid e hmem
    simp only [dropPending, List.mem_filter, decide_eq_true_eq] at hmem
    exact h.outNe mid e hmem.1
  · exact h.keysNodup.sublist ((List.filter_sublist s.pending).map Prod.fst)

theorem not_mem_pendingKeys_dropPending (s : ChannelState) (id : String) :
    id ∉ pendingKeys (dropPending s id) := by
  intro hc
  obtain ⟨⟨a, b⟩, hab, heq⟩ := List.mem_map.mp hc
  simp only [dropPending, List.mem_filter, decide_eq_true_eq] at hab
  exact hab.2 heq

theorem runCascade_cinv (fuel : Nat) :
    ∀ (s : ChannelState) (queue : List String),
      CInv s queue → queue.length + s.pending.length ≤ fuel →
      Inv (runCascade fuel s queue).1 := by
  induction fuel with
  | zero =>
    intro s queue h hb
    cases queue with
    | nil => exact cinv_nil h
    | cons a t => simp [List.length_cons] at hb
  | succ fuel ih =>
    intro s queue h hb
    cases queue with
    | nil =>
      rw [runCascade_nil]
      exact cinv_nil h
    | cons id q =>
      rw [runCascade_cons_fst]
      apply ih
      · exact cinv_step h (cascadeStep s id) rfl rfl rfl
      · have hlen := metOne_length s id
        simp only [List.length_append, List.length_map]
        simp only [List.length_cons] at hb
        have hpend : (cascadeStep s id).pending.length = (metOne s id).1.pending.length := rfl
        rw [hpend]
        omega

theorem deliverNew_inv {s : ChannelState} {id : String} (h : Inv s)
    (hm : id ∉ s.met) (hpk : id ∉ pendingKeys s) :
    Inv (runCascade (1 + (deliverNew s id).pending.length) (deliverNew s id) [id]).1 := by
  apply runCascade_cinv
  · exact inv_start h hm hpk (deliverNew s id) rfl rfl rfl
  · simp

theorem markMetOne_inv {s : ChannelState} {id : String} (h : Inv s) (hm : id ∉ s.met) :
    Inv (markMetOne s id).1 := by
  apply runCascade_cinv
  · exact inv_start (inv_dropPending h id) hm
      (not_mem_pendingKeys_dropPending s id) (addMet (dropPending s id) id) rfl rfl rfl
  · simp

/-! ## Helper lemmas: MarkDependenciesMet -/

theorem markMet_nil (s : ChannelState) : markDependenciesMet s [] = (s, []) := rfl

theorem markMet_cons_mem {s : ChannelState} {id : String} {ids : List String}
    (hm : id ∈ s.met) :
    markDependenciesMet s (id :: ids) = markDependenciesMet s ids := by
  simp [markDependenciesMet, hm]

theorem markMet_cons_not_mem {s : ChannelState} {id : String} {ids : List String}
    (hm : id ∉ s.met) :
    markDependenciesMet s (id :: ids) =
      ((markDependenciesMet (markMetOne s id).1 ids).1,
       (markMetOne s id).2 ++ (markDependenciesMet (markMetOne s id).1 ids).2) := by
  simp [markDependenciesMet, hm]

theorem markMetOne_met_mono {s : ChannelState} {id x : String} (hx : x ∈ s.met) :
    x ∈ (markMetOne s id).1.met := by
  apply runCascade_met_mono
  exact List.mem_append_left _ hx

theorem markMetOne_met_self (s : ChannelState) (id : String) :
    id ∈ (markMetOne s id).1.met := by
  apply runCascade_met_mono
  exact List.mem_append_right _ (List.mem_singleton.mpr rfl)

theorem markMet_met_mono : ∀ (ids : List String) (s : ChannelState) (x : String),
    x ∈ s.met → x ∈ (markDependenciesMet s ids).1.met := by
  intro ids
  induction ids with
  | nil =>
    intro s x hx
    exact hx
  | cons id ids ih =>
    intro s x hx
    by_cases hm : id ∈ s.met
    · rw [markMet_cons_mem hm]
      exact ih s x hx
    · rw [markMet_cons_not_mem hm]
      exact ih (markMetOne s id).1 x (markMetOne_met_mono hx)

theorem markMet_adds : ∀ (ids : List String) (s : ChannelState) (x : String),
    x ∈ ids → x ∈ (markDependenciesMet s ids).1.met := by
  intro ids
  induction ids with
  | nil =>
    intro s x hx
    cases hx
  | cons id ids ih =>
    intro s x hx
    rcases List.mem_cons.mp hx with rfl | hxt
    · by_cases hm : x ∈ s.met
      · rw [markMet_cons_mem hm]
        exact markMet_met_mono ids s x hm
      · rw [markMet_cons_not_mem hm]
        exact markMet_met_mono ids (markMetOne s x).1 x (markMetOne_met_self s x)
    · by_cases hm : id ∈ s.met
      · rw [markMet_cons_mem hm]
        exact ih s x hxt
      · rw [markMet_cons_not_mem hm]
        exact ih (markMetOne s id).1 x hxt

theorem markMet_inv : ∀ (ids : List String) (s : ChannelState),
    Inv s → Inv (markDependenciesMet s ids).1 := by
  intro ids
  induction ids with
  | nil =>
    intro s h
    exact h
  | cons id ids ih =>
    intro s h
    by_cases hm : id ∈ s.met
    · rw [markMet_cons_mem hm]
      exact ih s h
    · rw [markMet_cons_not_mem hm]
      exact ih (markMetOne s id).1 (markMetOne_inv h hm)

theorem markMet_persist : ∀ (ids : List String) (s : ChannelState) (mid : String) (e : PendingEntry),
    (mid, e) ∈ s.pending → mid ∉ ids →
    (∃ out2, (mid, ⟨e.payload, e.deps, out2⟩) ∈ (markDependenciesMet s ids).1.pending) ∨
      Event.messageReady mid e.payload ∈ (markDependenciesMet s ids).2 := by
  intro ids
  induction ids with
  | nil =>
    intro s mid e he _
    exact Or.inl ⟨e.outstanding, he⟩
  | cons id ids ih =>
    intro s mid e he hni
    have hne : mid ≠ id := fun hc => hni (by rw [hc]; exact List.mem_cons_self id ids)
    have hnt : mid ∉ ids := fun hc => hni (List.mem_cons_of_mem id hc)
    by_cases hm : id ∈ s.met
    · rw [markMet_cons_mem hm]
      exact ih s mid e he hnt
    · rw [markMet_cons_not_mem hm]
      have he2 : (mid, e) ∈ (addMet (dropPending s id) id).pending := by
        simp only [addMet, dropPending, List.mem_filter, decide_eq_true_eq]
        exact ⟨he, hne⟩
      rcases runCascade_persist (1 + (addMet (dropPending s id) id).pending.length)
          (addMet (dropPending s id) id) [id] mid e he2 with ⟨out2, hp⟩ | hev
      · rcases ih (markMetOne s id).1 mid ⟨e.payload, e.deps, out2⟩ hp hnt with ⟨out3, hp3⟩ | hev3
        · exact Or.inl ⟨out3, hp3⟩
        · exact Or.inr (List.mem_append_right _ hev3)
      · exact Or.inr (List.mem_append_left _ hev)

/-! ## Helper lemmas: UnwrapReceivedMessage -/

theorem unwrap_none {s : ChannelState} {data : Bytes} (h : decode data = none) :
    unwrapReceived s data = none := by
  simp [unwrapReceived, h]

theorem unwrap_dup_met {s : ChannelState} {data : Bytes} {w : WrappedMessage}
    (hw : decode data = some w) (hm : w.messageId ∈ s.met) :
    unwrapReceived s data = some (s, []) := by
  simp [unwrapReceived, hw, hm]

theorem unwrap_dup_pending {s : ChannelState} {data : Bytes} {w : WrappedMessage}
    (hw : decode data = some w) (hm : w.messageId ∉ s.met) (hpk : w.messageId ∈ pendingKeys s) :
    unwrapReceived s data = some (s, []) := by
  simp [unwrapReceived, hw, hm, hpk]

theorem unwrap_deliver {s : ChannelState} {data : Bytes} {w : WrappedMessage}
    (hw : decode data = some w) (hm : w.messageId ∉ s.met) (hpk : w.messageId ∉ pendingKeys s)
    (ho : outstandingOf s.met w.deps = []) :
    unwrapReceived s data = some
      ((runCascade (1 + (deliverNew s w.messageId).pending.length)
          (deliverNew s w.messageId) [w.messageId]).1,
       Event.messageReady w.messageId w.payload ::
         (runCascade (1 + (deliverNew s w.messageId).pending.length)
            (deliverNew s w.messageId) [w.messageId]).2) := by
  simp [unwrapReceived, hw, hm, hpk, ho]

theorem unwrap_buffer {s : ChannelState} {data : Bytes} {w : WrappedMessage}
    (hw : decode data = some w) (hm : w.messageId ∉ s.met) (hpk : w.messageId ∉ pendingKeys s)
    (ho : outstandingOf s.met w.deps ≠ []) :
    unwrapReceived s data = some
      (bufferMsg s w (outstandingOf s.met w.deps),
       [Event.missingDeps w.messageId (outstandingOf s.met w.deps)]) := by
  simp [unwrapReceived, hw, hm, hpk, ho]

theorem inv_bufferMsg {s : ChannelState} {w : WrappedMessage} (h : Inv s)
    (hm : w.messageId ∉ s.met) (hpk : w.messageId ∉ pendingKeys s)
    (ho : outstandingOf s.met w.deps ≠ []) :
    Inv (bufferMsg s w (outstandingOf s.met w.deps)) := by
  constructor
  · intro mid e hmem
    simp only [bufferMsg, List.mem_append, List.mem_singleton, Prod.mk.injEq] at hmem
    rcases hmem with hold | ⟨rfl, rfl⟩
    · exact h.outEq mid e hold
    · rfl
  · intro d mid
    simp only [bufferMsg, List.mem_append, List.mem_singleton, Prod.mk.injEq, List.mem_map]
    constructor
    · rintro (hold | ⟨a, hmem, rfl, rfl⟩)
      · obtain ⟨e, he, hdo⟩ := (h.wiIff d mid).mp hold
        exact ⟨e, Or.inl he, hdo⟩
      · exact ⟨⟨w.payload, w.deps, outstandingOf s.met w.deps⟩, Or.inr ⟨rfl, rfl⟩, hmem⟩
    · rintro ⟨e, hold | ⟨rfl, rfl⟩, hdo⟩
      · exact Or.inl ((h.wiIff d mid).mpr ⟨e, hold, hdo⟩)
      · exact Or.inr ⟨d, hdo, rfl, rfl⟩
  · intro mid e hmem
    simp only [bufferMsg, List.mem_append, List.mem_singleton, Prod.mk.injEq] at hmem
    rcases hmem with hold | ⟨rfl, rfl⟩
    · exact h.metDisj mid e hold
    · exact hm
  · intro mid e hmem
    simp only [bufferMsg, List.mem_append, List.mem_singleton, Prod.mk.injEq] at hmem
    rcases hmem with hold | ⟨rfl, rfl⟩
    · exact h.outNe mid e hold
    · exact ho
  · have : (bufferMsg s w (outstandingOf s.met w.deps)).pending.map Prod.fst =
        s.pending.map Prod.fst ++ [w.messageId] := by
      simp [bufferMsg]
    rw [this]
    simp only [List.nodup_append, List.nodup_singleton, List.mem_singleton]
    refine ⟨h.keysNodup, trivial, ?_⟩
    intro a ha hc
    rw [List.mem_singleton.mp hc] at ha
    exact hpk ha

theorem unwrap_inv {s : ChannelState} {data : Bytes} {s1 : ChannelState} {evs : List Event}
    (h : Inv s) (hu : unwrapReceived s data = some (s1, evs)) : Inv s1 := by
  cases hd : decode data with
  | none =>
    rw [unwrap_none hd] at hu
    cases hu
  | some w =>
    by_cases hm : w.messageId ∈ s.met
    · rw [unwrap_dup_met hd hm] at hu
      simp only [Option.some.injEq, Prod.mk.injEq] at hu
      rw [← hu.1]
      exact h
    · by_cases hpk : w.messageId ∈ pendingKeys s
      · rw [unwrap_dup_pending hd hm hpk] at hu
        simp only [Option.some.injEq, Prod.mk.injEq] at hu
        rw [← hu.1]
        exact h
      · by_cases ho : outstandingOf s.met w.deps = []
        · rw [unwrap_deliver hd hm hpk ho] at hu
          simp only [Option.some.injEq, Prod.mk.injEq] at hu
          rw [← hu.1]
          exact deliverNew_inv h hm hpk
        · rw [unwrap_buffer hd hm hpk ho] at hu
          simp only [Option.some.injEq, Prod.mk.injEq] at hu
          rw [← hu.1]
          exact inv_bufferMsg h hm hpk ho

/-! ## Helper lemmas: WrapOutgoingMessage -/

theorem wrap_ok {s : ChannelState} {payload : Bytes} {mid : String}
    (hp : payload ≠ []) (hm : mid ≠ "") :
    wrapOutgoing s payload mid = Except.ok
      ({ s with met := s.met ++ [mid], history := pushHistory s.history mid },
       encode ⟨mid, s.history.filter (fun d => decide (d ≠ mid)), payload⟩,
       [Event.messageSent mid]) := by
  simp [wrapOutgoing, hp, hm]

theorem wrap_inv {s : ChannelState} {payload : Bytes} {mid : String} {s1 : ChannelState}
    {B : Bytes} {evs : List Event} (h : Inv s)
    (hpk : mid ∉ pendingKeys s) (hwk : mid ∉ s.waitIndex.map Prod.fst)
    (hok : wrapOutgoing s payload mid = Except.ok (s1, B, evs)) : Inv s1 := by
  by_cases hc : payload = [] ∨ mid = ""
  · rw [wrapOutgoing, if_pos hc] at hok
    cases hok
  · push_neg at hc
    rw [wrap_ok hc.1 hc.2] at hok
    simp only [Except.ok.injEq, Prod.mk.injEq] at hok
    rw [← hok.1]
    constructor
    · intro mid2 e hmem
      rw [h.outEq mid2 e hmem, outstandingOf, outstandingOf]
      apply List.filter_congr
      intro d hd
      apply decide_eq_decide.mpr
      show d ∉ s.met ↔ d ∉ s.met ++ [mid]
      simp only [List.mem_append, List.mem_singleton]
      by_cases hdm : d = mid
      · subst hdm
        constructor
        · intro hdn
          exfalso
          have hout : d ∈ e.outstanding := by
            rw [h.outEq mid2 e hmem, outstandingOf, List.mem_filter]
            exact ⟨hd, by simp [hdn]⟩
          exact hwk (List.mem_map_of_mem Prod.fst ((h.wiIff d mid2).mpr ⟨e, hmem, hout⟩))
        · intro hdn hdm2
          exact hdn (Or.inl hdm2)
      · constructor
        · intro hdn hcc
          exact hcc.elim hdn hdm
        · intro hdn hdm2
          exact hdn (Or.inl hdm2)
    · intro d mid2
      exact h.wiIff d mid2
    · intro mid2 e hmem
      simp only [List.mem_append, List.mem_singleton]
      rintro (hl | rfl)
      · exact h.metDisj mid2 e hmem hl
      · exact hpk (List.mem_map_of_mem Prod.fst hmem)
    · exact h.outNe
    · exact h.keysNodup

/-! ## Remaining small helpers -/

theorem inv_empty : Inv emptyChannelState := by
  constructor <;> simp [emptyChannelState, pendingKeys]

theorem countReady_zero_of_not_mem {mid : String} {l : List Event}
    (h : ∀ p, Event.messageReady mid p ∉ l) : countReady mid l = 0 := by
  rw [countReady, List.length_eq_zero, List.filter_eq_nil_iff]
  intro ev hev
  cases ev with
  | messageReady m p =>
    simp only [isReadyFor, decide_eq_true_eq]
    intro hc
    rw [hc] at hev
    exact h p hev
  | messageSent m => simp [isReadyFor]
  | missingDeps m d => simp [isReadyFor]
  | periodicSync d => simp [isReadyFor]

theorem countReady_cons_ready (mid : String) (p : Bytes) (l : List Event) :
    countReady mid (Event.messageReady mid p :: l) = countReady mid l + 1 := by
  simp [countReady, List.filter_cons, isReadyFor]

/-! ## The claims -/

/-- Claim C1, counterexample: the claim states that the message-ready
callback receives the messageId together with the unwrapped payload.
bindings.h line 43 declares `MessageReadyCallback` with exactly one
parameter (`const char* messageID`); a callback carrying both an id and a
payload would need at least two parameters, and this one does not. -/
theorem messageReady_callback_no_payload_param :
    ¬ 2 ≤ MessageReadyCallbackParams.length := by decide

/-- Claim C1, amended: every MESSAGE_READY event delivered to the
registered sink carries only the id of the delivered message: the
parameter list of the callback is exactly `[messageID]`, and no parameter named `payload`
(nor any second parameter at all) exists. -/
theorem messageReady_callback_id_only :
    MessageReadyCallbackParams.map CParam.pname = ["messageID"] ∧
    "payload" ∉ MessageReadyCallbackParams.map CParam.pname ∧
    MessageReadyCallbackParams.length = 1 := by decide

/-- Claim C8, counterexample: the claim states that every PERIODIC_SYNC
event carries a compact summary of outstanding dependency ids.
bindings.h line 46 declares `PeriodicSyncCallback` with the single
parameter `void* user_data` — the registration-time context pointer — so
no parameter other than `user_data` (and in particular no summary
argument) exists. -/
theorem periodicSync_callback_no_summary_param :
    ¬ ∃ a ∈ PeriodicSyncCallbackParams, CParam.pname a ≠ "user_data" := by decide

/-- Claim C8, amended: the periodic-sync callback is invoked with only the
`user_data` pointer supplied at registration; it carries no summary blob,
serving purely as a sync suggestion trigger. -/
theorem periodicSync_callback_userdata_only :
    PeriodicSyncCallbackParams = [CParam.voidPtr "user_data"] ∧
    PeriodicSyncCallbackParams.length = 1 := by decide

/-- Claim C10: of the four callbacks accepted by `RegisterCallbacks`, only
the periodic-sync callback receives the `user_data` pointer supplied at
registration; message-ready and message-sent receive only the message id,
and missing-dependencies receives the message id plus the dependency id
list (`missingDeps` with its count). -/
theorem callbacks_user_context_shape :
    MessageReadyCallbackParams.map CParam.pname = ["messageID"] ∧
    MessageSentCallbackParams.map CParam.pname = ["messageID"] ∧
    MissingDependenciesCallbackParams.map CParam.pname =
      ["messageID", "missingDeps", "missingDepsCount"] ∧
    PeriodicSyncCallbackParams.map CParam.pname = ["user_data"] ∧
    "user_data" ∉ MessageReadyCallbackParams.map CParam.pname ∧
    "user_data" ∉ MessageSentCallbackParams.map CParam.pname ∧
    "user_data" ∉ MissingDependenciesCallbackParams.map CParam.pname ∧
    "user_data" ∈ RegisterCallbacksParams.map CParam.pname := by decide

/-- Claim C2: wrap/unwrap round-trips losslessly.  For every non-empty
payload `p` and non-empty id `mid`, the wire blob for `⟨mid, [], p⟩`
decodes back exactly; `WrapOutgoingMessage` on a channel with empty causal
history produces exactly those bytes (registering the id in `met` and the
history); and `UnwrapReceivedMessage` of those bytes on a fresh manager
immediately emits `MESSAGE_READY` with id `mid` and payload exactly `p`. -/
theorem wrap_unwrap_roundtrip (p : Bytes) (mid : String) (hp : p ≠ []) (hm : mid ≠ "") :
    decode (encode ⟨mid, [], p⟩) = some ⟨mid, [], p⟩ ∧
    wrapOutgoing emptyChannelState p mid = Except.ok
      (⟨[mid], [], [], [mid]⟩, encode ⟨mid, [], p⟩, [Event.messageSent mid]) ∧
    ∃ s2, unwrapReceived emptyChannelState (encode ⟨mid, [], p⟩) =
      some (s2, [Event.messageReady mid p]) := by
  refine ⟨decode_encode _, ?_, ?_⟩
  · rw [wrap_ok hp hm]
    rfl
  · exact ⟨_, unwrap_deliver (decode_encode _) (List.not_mem_nil mid) (List.not_mem_nil mid) rfl⟩

/-- Witness for C2 at payload `[104, 105]` and id `"m1"`. -/
theorem wrap_unwrap_roundtrip_witness :
    decode (encode ⟨"m1", [], [104, 105]⟩) = some ⟨"m1", [], [104, 105]⟩ ∧
    wrapOutgoing emptyChannelState [104, 105] "m1" = Except.ok
      (⟨["m1"], [], [], ["m1"]⟩, encode ⟨"m1", [], [104, 105]⟩, [Event.messageSent "m1"]) ∧
    ∃ s2, unwrapReceived emptyChannelState (encode ⟨"m1", [], [104, 105]⟩) =
      some (s2, [Event.messageReady "m1" [104, 105]]) :=
  wrap_unwrap_roundtrip [104, 105] "m1" (by decide) (by decide)

/-- Claim C6: the cascade always terminates on every input, adversarial
cyclic dependency chains included: with fuel `queue.length +
pending.length` (exactly what the unwrap and mark-met call sites pass) the
result is already stable — any extra fuel changes nothing, so the
breadth-first loop is bounded by the graph size — and `met` only grows
across a cascade. -/
theorem cascade_terminates (s : ChannelState) (queue : List String) (n : Nat) :
    runCascade (queue.length + s.pending.length + n) s queue =
      runCascade (queue.length + s.pending.length) s queue ∧
    ∃ t, (runCascade (queue.length + s.pending.length) s queue).1.met = s.met ++ t := by
  constructor
  · exact runCascade_fuel (queue.length + s.pending.length) n s queue (le_refl _)
  · exact runCascade_met_append (queue.length + s.pending.length) s queue

/-- Claim C4: unwrap is idempotent with respect to delivery.  If unwrapping
bytes `data` (decoding to `w`) succeeds with state `s1` and events `evs`,
then unwrapping the same bytes again returns success on the unchanged
state `s1` with no events — no re-delivery, no re-buffering, no
re-cascade — and the first call emitted at most one `MESSAGE_READY` for
the id of `w`, so the two calls together deliver exactly once. -/
theorem unwrap_idempotent {s : ChannelState} {data : Bytes} {w : WrappedMessage}
    {s1 : ChannelState} {evs : List Event}
    (hw : decode data = some w) (h1 : unwrapReceived s data = some (s1, evs)) :
    unwrapReceived s1 data = some (s1, []) ∧ countReady w.messageId evs ≤ 1 := by
  by_cases hm : w.messageId ∈ s.met
  · rw [unwrap_dup_met hw hm] at h1
    simp only [Option.some.injEq, Prod.mk.injEq] at h1
    rw [← h1.1, ← h1.2]
    exact ⟨unwrap_dup_met hw hm, by simp [countReady]⟩
  · by_cases hpk : w.messageId ∈ pendingKeys s
    · rw [unwrap_dup_pending hw hm hpk] at h1
      simp only [Option.some.injEq, Prod.mk.injEq] at h1
      rw [← h1.1, ← h1.2]
      exact ⟨unwrap_dup_pending hw hm hpk, by simp [countReady]⟩
    · by_cases ho : outstandingOf s.met w.deps = []
      · rw [unwrap_deliver hw hm hpk ho] at h1
        simp only [Option.some.injEq, Prod.mk.injEq] at h1
        have hnocascade : ∀ p, Event.messageReady w.messageId p ∉
            (runCascade (1 + (deliverNew s w.messageId).pending.length)
              (deliverNew s w.messageId) [w.messageId]).2 := by
          intro p hc
          obtain ⟨e, he⟩ := runCascade_ready_pending _ _ _ _ _ hc
          exact hpk (List.mem_map_of_mem Prod.fst he)
        constructor
        · have hmet1 : w.messageId ∈ s1.met := by
            rw [← h1.1]
            apply runCascade_met_mono
            exact List.mem_append_right _ (List.mem_singleton.mpr rfl)
          exact unwrap_dup_met hw hmet1
        · rw [← h1.2, countReady_cons_ready, countReady_zero_of_not_mem hnocascade]
      · rw [unwrap_buffer hw hm hpk ho] at h1
        simp only [Option.some.injEq, Prod.mk.injEq] at h1
        constructor
        · have hm1 : w.messageId ∉ s1.met := by
            rw [← h1.1]
            exact hm
          have hpk1 : w.messageId ∈ pendingKeys s1 := by
            rw [← h1.1]
            simp [pendingKeys, bufferMsg]
          exact unwrap_dup_pending hw hm1 hpk1
        · rw [← h1.2]
          simp [countReady, isReadyFor]

/-- Witness for C4: unwrapping `⟨m1, [], [5]⟩` twice on a fresh manager. -/
theorem unwrap_idempotent_witness :
    unwrapReceived (⟨["m1"], [], [], ["m1"]⟩ : ChannelState) (encode ⟨"m1", [], [5]⟩) =
      some ((⟨["m1"], [], [], ["m1"]⟩ : ChannelState), []) ∧
    countReady "m1" [Event.messageReady "m1" [5]] ≤ 1 :=
  @unwrap_idempotent emptyChannelState (encode ⟨"m1", [], [5]⟩) ⟨"m1", [], [5]⟩
    ⟨["m1"], [], [], ["m1"]⟩ [Event.messageReady "m1" [5]] (by decide) (by decide)

/-- Claim C5: every operation — wrap (under the global-uniqueness
assumption that the new id is not buffered and nothing waits on it),
unwrap, and markDependenciesMet — preserves the channel-state invariant:
outstanding sets are exactly the unmet dependencies, `waitIndex` is their
exact inverse, and `met` stays disjoint from the pending keys. -/
theorem operations_preserve_invariant :
    (∀ (s : ChannelState) (payload : Bytes) (mid : String) (s1 : ChannelState)
        (B : Bytes) (evs : List Event),
        Inv s → mid ∉ pendingKeys s → mid ∉ s.waitIndex.map Prod.fst →
        wrapOutgoing s payload mid = Except.ok (s1, B, evs) → Inv s1) ∧
    (∀ (s : ChannelState) (data : Bytes) (s1 : ChannelState) (evs : List Event),
        Inv s → unwrapReceived s data = some (s1, evs) → Inv s1) ∧
    (∀ (s : ChannelState) (ids : List String),
        Inv s → Inv (markDependenciesMet s ids).1) :=
  ⟨fun _ _ _ _ _ _ h hpk hwk hok => wrap_inv h hpk hwk hok,
   fun _ _ _ _ h hu => unwrap_inv h hu,
   fun s ids h => markMet_inv ids s h⟩

/-- Witness for C5: all three conjuncts applied at concrete inputs — a
wrap of `[3]` as `"m1"` on a fresh channel, an unwrap of `⟨m1, [], [5]⟩`
on a fresh channel, and a mark-met of `["m1"]` on the state that buffered
`⟨m2, [m1], [7]⟩`. -/
theorem operations_preserve_invariant_witness :
    Inv (⟨["m1"], [], [], ["m1"]⟩ : ChannelState) ∧
    Inv (markDependenciesMet (⟨[], [("m2", ⟨[7], ["m1"], ["m1"]⟩)], [("m1", "m2")], []⟩ :
      ChannelState) ["m1"]).1 :=
  ⟨operations_preserve_invariant.1 emptyChannelState [3] "m1"
      ⟨["m1"], [], [], ["m1"]⟩ (encode ⟨"m1", [], [3]⟩) [Event.messageSent "m1"]
      inv_empty (by decide) (by decide) rfl,
   operations_preserve_invariant.2.2
      ⟨[], [("m2", ⟨[7], ["m1"], ["m1"]⟩)], [("m1", "m2")], []⟩ ["m1"]
      (unwrap_inv inv_empty
        (show unwrapReceived emptyChannelState (encode ⟨"m2", ["m1"], [7]⟩) =
          some (⟨[], [("m2", ⟨[7], ["m1"], ["m1"]⟩)], [("m1", "m2")], []⟩,
            [Event.missingDeps "m2" ["m1"]]) by decide))⟩

/-- Claim C7: cascade-delivered messages come out in dependency order.  If
`m1` was already buffered (so it arrived earlier) and the arrival of the
message `w` it depends on triggers delivery of both, then the event trace
of that unwrap puts `MESSAGE_READY` for `w` strictly first and the
`MESSAGE_READY` for `m1` after it — never the reverse. -/
theorem cascade_delivery_order {s : ChannelState} {data : Bytes} {w : WrappedMessage}
    {s1 : ChannelState} {evs : List Event} {m1 : String} {e : PendingEntry} {p1 : Bytes}
    (hw : decode data = some w)
    (hpend : (m1, e) ∈ s.pending)
    (_hdep : w.messageId ∈ e.deps)
    (hun : unwrapReceived s data = some (s1, evs))
    (hm1 : Event.messageReady m1 p1 ∈ evs) :
    ∃ rest, evs = Event.messageReady w.messageId w.payload :: rest ∧
      Event.messageReady m1 p1 ∈ rest := by
  by_cases hm : w.messageId ∈ s.met
  · rw [unwrap_dup_met hw hm] at hun
    simp only [Option.some.injEq, Prod.mk.injEq] at hun
    rw [← hun.2] at hm1
    cases hm1
  · by_cases hpk : w.messageId ∈ pendingKeys s
    · rw [unwrap_dup_pending hw hm hpk] at hun
      simp only [Option.some.injEq, Prod.mk.injEq] at hun
      rw [← hun.2] at hm1
      cases hm1
    · by_cases ho : outstandingOf s.met w.deps = []
      · rw [unwrap_deliver hw hm hpk ho] at hun
        simp only [Option.some.injEq, Prod.mk.injEq] at hun
        refine ⟨(runCascade (1 + (deliverNew s w.messageId).pending.length)
            (deliverNew s w.messageId) [w.messageId]).2, hun.2.symm, ?_⟩
        rw [← hun.2] at hm1
        rcases List.mem_cons.mp hm1 with heq | htail
        · exfalso
          injection heq with hid hpl
          exact hpk (hid ▸ List.mem_map_of_mem Prod.fst hpend)
        · exact htail
      · rw [unwrap_buffer hw hm hpk ho] at hun
        simp only [Option.some.injEq, Prod.mk.injEq] at hun
        rw [← hun.2] at hm1
        simp at hm1

/-- Witness for C7: `m1` (payload `[1]`) buffered waiting on `m2`; the
arrival of `m2` (payload `[2]`) delivers `m2` first, then `m1`. -/
theorem cascade_delivery_order_witness :
    ∃ rest, ([Event.messageReady "m2" [2], Event.messageReady "m1" [1]] : List Event) =
      Event.messageReady "m2" [2] :: rest ∧ Event.messageReady "m1" [1] ∈ rest :=
  @cascade_delivery_order
    ⟨[], [("m1", ⟨[1], ["m2"], ["m2"]⟩)], [("m2", "m1")], []⟩
    (encode ⟨"m2", [], [2]⟩) ⟨"m2", [], [2]⟩
    ⟨["m2", "m1"], [], [], ["m2", "m1"]⟩
    [Event.messageReady "m2" [2], Event.messageReady "m1" [1]]
    "m1" ⟨[1], ["m2"], ["m2"]⟩ [1]
    (by decide) (by decide) (by decide) (by decide) (by decide)

theorem outstandingOf_nil (deps : List String) : outstandingOf [] deps = deps := by
  rw [outstandingOf]
  apply List.filter_eq_self.mpr
  intro a _
  simp

/-- Claim C9: `ResetReliabilityManager` on an invalid handle (before
creation) fails with `NotInitialized`; on a valid handle it clears `met`,
`pending` and `waitIndex` back to empty and returns the manager to
`Active`.  Reset isolation: any message that became pending under some
prior state becomes pending again when its bytes are re-delivered to the
cleared (empty) state. -/
theorem reset_clears_state :
    resetReliabilityManager none = Except.error SdsError.notInitialized ∧
    (∀ m : Manager, resetReliabilityManager (some m) =
        Except.ok ⟨m.channelId, Phase.active, emptyChannelState⟩) ∧
    (∀ (s : ChannelState) (data : Bytes) (s1 : ChannelState) (evs : List Event)
        (mid : String) (e : PendingEntry),
        unwrapReceived s data = some (s1, evs) → (mid, e) ∈ s1.pending →
        mid ∉ pendingKeys s →
        ∃ s2 evs2 e2, unwrapReceived emptyChannelState data = some (s2, evs2) ∧
          (mid, e2) ∈ s2.pending) := by
  refine ⟨rfl, fun m => rfl, ?_⟩
  intro s data s1 evs mid e hu hp hpk
  cases hd : decode data with
  | none =>
    rw [unwrap_none hd] at hu
    cases hu
  | some w =>
    by_cases hm : w.messageId ∈ s.met
    · rw [unwrap_dup_met hd hm] at hu
      simp only [Option.some.injEq, Prod.mk.injEq] at hu
      rw [← hu.1] at hp
      exact absurd (List.mem_map_of_mem Prod.fst hp) hpk
    · by_cases hpk2 : w.messageId ∈ pendingKeys s
      · rw [unwrap_dup_pending hd hm hpk2] at hu
        simp only [Option.some.injEq, Prod.mk.injEq] at hu
        rw [← hu.1] at hp
        exact absurd (List.mem_map_of_mem Prod.fst hp) hpk
      · by_cases ho : outstandingOf s.met w.deps = []
        · rw [unwrap_deliver hd hm hpk2 ho] at hu
          simp only [Option.some.injEq, Prod.mk.injEq] at hu
          rw [← hu.1] at hp
          obtain ⟨e0, he0⟩ := runCascade_pending_sub _ _ _ _ _ hp
          exact absurd (List.mem_map_of_mem Prod.fst he0) hpk
        · rw [unwrap_buffer hd hm hpk2 ho] at hu
          simp only [Option.some.injEq, Prod.mk.injEq] at hu
          rw [← hu.1] at hp
          have hdne : w.deps ≠ [] := by
            intro hc
            rw [hc] at ho
            exact ho rfl
          have ho0 : outstandingOf emptyChannelState.met w.deps ≠ [] := by
            show outstandingOf [] w.deps ≠ []
            rw [outstandingOf_nil]
            exact hdne
          refine ⟨bufferMsg emptyChannelState w (outstandingOf emptyChannelState.met w.deps),
            [Event.missingDeps w.messageId (outstandingOf emptyChannelState.met w.deps)],
            ⟨w.payload, w.deps, outstandingOf emptyChannelState.met w.deps⟩,
            unwrap_buffer hd (List.not_mem_nil _) (List.not_mem_nil _) ho0, ?_⟩
          simp only [bufferMsg, List.mem_append, List.mem_singleton, Prod.mk.injEq] at hp
          rcases hp with hold | ⟨rfl, -⟩
          · exact absurd (List.mem_map_of_mem Prod.fst hold) hpk
          · simp [bufferMsg]

/-- Witness for C9: the reset conjuncts at `none` and at a concrete
manager, and re-pending of `⟨m2, [m1], [7]⟩` after unwrapping it on a
fresh (reset-equivalent) state. -/
theorem reset_clears_state_witness :
    resetReliabilityManager none = Except.error SdsError.notInitialized ∧
    resetReliabilityManager (some ⟨"c1", Phase.active,
        ⟨[], [("m2", ⟨[7], ["m1"], ["m1"]⟩)], [("m1", "m2")], []⟩⟩) =
      Except.ok ⟨"c1", Phase.active, emptyChannelState⟩ ∧
    ∃ s2 evs2 e2,
      unwrapReceived emptyChannelState (encode ⟨"m2", ["m1"], [7]⟩) = some (s2, evs2) ∧
        ("m2", e2) ∈ s2.pending :=
  ⟨reset_clears_state.1,
   reset_clears_state.2.1 ⟨"c1", Phase.active,
     ⟨[], [("m2", ⟨[7], ["m1"], ["m1"]⟩)], [("m1", "m2")], []⟩⟩,
   reset_clears_state.2.2 emptyChannelState (encode ⟨"m2", ["m1"], [7]⟩)
     ⟨[], [("m2", ⟨[7], ["m1"], ["m1"]⟩)], [("m1", "m2")], []⟩
     [Event.missingDeps "m2" ["m1"]] "m2" ⟨[7], ["m1"], ["m1"]⟩
     (by decide) (by decide) (by decide)⟩

/-- Claim C3: unwrapping a message with a non-empty outstanding set stores
it in `pending` (with `waitIndex` gaining one edge per outstanding
dependency), emits `MISSING_DEPENDENCIES` with exactly the outstanding
ids, emits no `MESSAGE_READY`; and a subsequent `MarkDependenciesMet` on
those ids delivers the buffered message with `MESSAGE_READY`. -/
theorem unwrap_missing_deps_then_mark_delivers {s : ChannelState} {w : WrappedMessage}
    (hInv : Inv s)
    (hm : w.messageId ∉ s.met)
    (hpk : w.messageId ∉ pendingKeys s)
    (hself : w.messageId ∉ w.deps)
    (ho : outstandingOf s.met w.deps ≠ []) :
    unwrapReceived s (encode w) = some
      (bufferMsg s w (outstandingOf s.met w.deps),
       [Event.missingDeps w.messageId (outstandingOf s.met w.deps)]) ∧
    (∀ p, Event.messageReady w.messageId p ∉
        [Event.missingDeps w.messageId (outstandingOf s.met w.deps)]) ∧
    Event.messageReady w.messageId w.payload ∈
      (markDependenciesMet (bufferMsg s w (outstandingOf s.met w.deps))
        (outstandingOf s.met w.deps)).2 := by
  refine ⟨unwrap_buffer (decode_encode w) hm hpk ho, ?_, ?_⟩
  · intro p hc
    simp at hc
  · have hInvB : Inv (bufferMsg s w (outstandingOf s.met w.deps)) :=
      inv_bufferMsg hInv hm hpk ho
    have hmemB : (w.messageId,
        (⟨w.payload, w.deps, outstandingOf s.met w.deps⟩ : PendingEntry)) ∈
        (bufferMsg s w (outstandingOf s.met w.deps)).pending := by
      simp [bufferMsg]
    have hnotin : w.messageId ∉ outstandingOf s.met w.deps := by
      intro hc
      exact hself (List.mem_of_mem_filter hc)
    rcases markMet_persist (outstandingOf s.met w.deps)
        (bufferMsg s w (outstandingOf s.met w.deps)) w.messageId
        ⟨w.payload, w.deps, outstandingOf s.met w.deps⟩ hmemB hnotin with ⟨out2, hp2⟩ | hev
    · exfalso
      have hInvF := markMet_inv (outstandingOf s.met w.deps)
        (bufferMsg s w (outstandingOf s.met w.deps)) hInvB
      have houtEq := hInvF.outEq _ _ hp2
      have houtNe := hInvF.outNe _ _ hp2
      obtain ⟨d, hd⟩ := List.exists_mem_of_ne_nil _ houtNe
      rw [houtEq, outstandingOf, List.mem_filter, decide_eq_true_eq] at hd
      obtain ⟨hddeps, hdnm⟩ := hd
      have hdout : d ∈ outstandingOf s.met w.deps := by
        rw [outstandingOf, List.mem_filter, decide_eq_true_eq]
        refine ⟨hddeps, fun hc => hdnm ?_⟩
        exact markMet_met_mono _ _ _ hc
      exact hdnm (markMet_adds _ _ _ hdout)
    · exact hev

/-- Witness for C3 (first and third conjuncts) at a fresh state and the
message `⟨m2, [m1], [7]⟩`: unwrap buffers it and emits
`MISSING_DEPENDENCIES(m2, [m1])`; marking `m1` met emits
`MESSAGE_READY(m2, [7])`. -/
theorem unwrap_missing_deps_then_mark_delivers_witness :
    unwrapReceived emptyChannelState (encode ⟨"m2", ["m1"], [7]⟩) = some
      (bufferMsg emptyChannelState ⟨"m2", ["m1"], [7]⟩
        (outstandingOf emptyChannelState.met ["m1"]),
       [Event.missingDeps "m2" (outstandingOf emptyChannelState.met ["m1"])]) ∧
    Event.messageReady "m2" [7] ∈
      (markDependenciesMet
        (bufferMsg emptyChannelState ⟨"m2", ["m1"], [7]⟩
          (outstandingOf emptyChannelState.met ["m1"]))
        (outstandingOf emptyChannelState.met ["m1"])).2 :=
  ⟨(unwrap_missing_deps_then_mark_delivers inv_empty (by decide) (by decide)
      (by decide) (by decide)).1,
   (unwrap_missing_deps_then_mark_delivers inv_empty (by decide) (by decide)
      (by decide) (by decide)).2.2⟩

end Sds
